import Mathlib

/-
Verification development for the magnesia lexical reader
(src/reader.rs, src/types.rs, src/print.rs).

Strings are modelled as lists of characters.  The Rust `Reader` holds a
character cursor (`Peekable<Chars>`) and a pushback `Vec<char>`; the Vec is
modelled as a list in the same order as the Rust vector: index 0 is the
first element, `push` appends at the end, `pop` removes the last element.
The two source loops (`read_while`, `read_string_type`) are modelled with a
fuel parameter; fuel `size r + 1` always suffices because every iteration
consumes at least one character.
-/

set_option maxHeartbeats 1000000

deriving instance DecidableEq for Except

namespace Magnesia

inductive ReaderError where
  | EOF
  | CannotUnreadChar
  | InvalidToken
  | InvalidCharacter
  | InvalidSymbol
  | InvalidKeyword
deriving DecidableEq

inductive Symbol where
  | SimpleSymbol (name : List Char)
  | NamespacedSymbol (ns : List Char) (name : List Char)
deriving DecidableEq

inductive Keyword where
  | SimpleKeyword (name : List Char)
  | NamespacedKeyword (ns : List Char) (name : List Char)
deriving DecidableEq

structure Pattern where
  s : List Char
deriving DecidableEq

structure Reader where
  s : List Char
  buf : List Char
deriving DecidableEq

/-- Conversion from a Lean string literal to the character-list model. -/
def chars (s : String) : List Char :=
  s.data

def string_reader (s : List Char) : Reader :=
  Reader.mk s []

/-- Rust `peek_char`: if the pushback buffer is non-empty it returns
`r.buf[0]` (the first element of the Vec), else it peeks the stream. -/
def peek_char (r : Reader) : Except ReaderError Char :=
  match r.buf with
  | c :: _ => .ok c
  | [] =>
    match r.s with
    | c :: _ => .ok c
    | [] => .error .EOF

/-- Rust `Vec::pop`: removes and returns the last element. -/
def vec_pop (v : List Char) : Option (Char × List Char) :=
  match v with
  | [] => none
  | c :: rest =>
    match vec_pop rest with
    | none => some (c, [])
    | some (x, rest2) => some (x, c :: rest2)

def read_char (r : Reader) : Except ReaderError Char × Reader :=
  match vec_pop r.buf with
  | some (c, b) => (.ok c, Reader.mk r.s b)
  | none =>
    match r.s with
    | c :: s => (.ok c, Reader.mk s r.buf)
    | [] => (.error .EOF, r)

def unread_char (r : Reader) (c : Char) : Except ReaderError Unit × Reader :=
  (.ok (), Reader.mk r.s (r.buf ++ [c]))

/-- Total number of characters still readable from the reader. -/
def size (r : Reader) : Nat :=
  r.buf.length + r.s.length

/-- The exact character sequence successive `read_char` calls produce:
the pushback buffer drained last-pushed-first, then the stream. -/
def remaining (r : Reader) : List Char :=
  r.buf.reverse ++ r.s

def read_while_fuel (p : Char → Bool) (eof_err : Bool) :
    Nat → Reader → List Char → Except ReaderError (List Char) × Reader
  | 0, r, _ => (.error .EOF, r)
  | fuel + 1, r, acc =>
    match read_char r with
    | (.ok c, r₁) =>
      if p c then (.ok acc, (unread_char r₁ c).2)
      else read_while_fuel p eof_err fuel r₁ (acc ++ [c])
    | (.error _, r₁) => (if eof_err then .error .EOF else .ok acc, r₁)

def read_while (p : Char → Bool) (eof_err : Bool) (r : Reader) :
    Except ReaderError (List Char) × Reader :=
  read_while_fuel p eof_err (size r + 1) r []

def is_macro_terminating (c : Char) : Bool :=
  c == '"' || c == ';' || c == '@' || c == '^' || c == Char.ofNat 96 ||
  c == '~' || c == '\\' ||
  c == '(' || c == ')' || c == '[' || c == ']' ||
  c == Char.ofNat 123 || c == Char.ofNat 125

def is_whitespace (c : Char) : Bool :=
  c == ' ' || c == '\n' || c == '\r'

def escape_char (c : Char) : Except ReaderError (List Char) :=
  if c == 't' then .ok ['\t']
  else if c == 'r' then .ok ['\r']
  else if c == 'n' then .ok ['\n']
  else if c == '\\' then .ok ['\\']
  else if c == '"' then .ok ['"']
  else .error .InvalidCharacter

def read_string_fuel : Nat → Reader → List Char → Except ReaderError (List Char) × Reader
  | 0, r, _ => (.error .EOF, r)
  | fuel + 1, r, acc =>
    match read_char r with
    | (.ok c, r₁) =>
      if c == '"' then (.ok acc, r₁)
      else if c == '\\' then
        match read_char r₁ with
        | (.ok c₂, r₂) =>
          match escape_char c₂ with
          | .ok e => read_string_fuel fuel r₂ (acc ++ e)
          | .error err => (.error err, r₂)
        | (.error e, r₂) => (.error e, r₂)
      else read_string_fuel fuel r₁ (acc ++ [c])
    | (.error e, r₁) => (.error e, r₁)

def read_string_type (r : Reader) (_ : Char) : Except ReaderError (List Char) × Reader :=
  read_string_fuel (size r + 1) r []

def read_regex (r : Reader) (_ : Char) : Except ReaderError Pattern × Reader :=
  let p := read_while (fun c => c == '"') true r
  ((p.1).map Pattern.mk, p.2)

def read_token (r : Reader) (initch : Char) : Except ReaderError (List Char) × Reader :=
  let p := read_while (fun c => is_macro_terminating c || is_whitespace c) false r
  ((p.1).map (fun s => initch :: s), p.2)

/-- Rust `str::split` on the single-character pattern "/": the list of
pieces in left-to-right order; `rsplit` is its reverse. -/
def split_slash : List Char → List (List Char)
  | [] => [[]]
  | c :: rest =>
    if c == '/' then [] :: split_slash rest
    else
      match split_slash rest with
      | [] => [[c]]
      | p :: ps => (c :: p) :: ps

/-- Rust `token.ends_with(":")`. -/
def ends_with_colon (t : List Char) : Bool :=
  t.getLast? == some ':'

/-- Rust `token.starts_with("::")`: the first two characters are both `:`. -/
def starts_with_double_colon (t : List Char) : Bool :=
  match t with
  | c₁ :: c₂ :: _ => c₁ == ':' && c₂ == ':'
  | _ => false

def parse_symbol (token : List Char) :
    Except ReaderError (Option (List Char) × List Char) :=
  if token.isEmpty || ends_with_colon token || starts_with_double_colon token then
    .error .InvalidSymbol
  else
    match (split_slash token).reverse with
    | name :: rest => .ok (rest.head?, name)
    | [] => .error .InvalidSymbol

def read_symbol (r : Reader) (initch : Char) : Except ReaderError Symbol × Reader :=
  match read_token r initch with
  | (.ok s, r₁) =>
    if s == ['/'] then (.ok (Symbol.SimpleSymbol ['/']), r₁)
    else
      match parse_symbol s with
      | .ok (none, name) => (.ok (Symbol.SimpleSymbol name), r₁)
      | .ok (some ns, name) => (.ok (Symbol.NamespacedSymbol ns name), r₁)
      | .error e => (.error e, r₁)
  | (.error e, r₁) => (.error e, r₁)

def read_keyword (r : Reader) (_ : Char) : Except ReaderError Keyword × Reader :=
  match read_char r with
  | (.ok c, r₁) =>
    if is_whitespace c then (.error .InvalidToken, r₁)
    else
      match read_token r₁ c with
      | (.ok token, r₂) =>
        match parse_symbol token with
        | .ok (ns, name) =>
          if token.head? == some ':' then (.error .InvalidKeyword, r₂)
          else
            match ns with
            | some ns => (.ok (Keyword.NamespacedKeyword ns name), r₂)
            | none => (.ok (Keyword.SimpleKeyword name), r₂)
        | .error e => (.error e, r₂)
      | (.error e, r₂) => (.error e, r₂)
  | (.error e, r₁) => (.error e, r₁)

/-- Modelled from the spec: the escape table of section 4.4, as the claim
states it.  Used only on the specification side of the refinement theorem
for the string-literal reader. -/
def escape_table (c : Char) : Option Char :=
  if c = 't' then some '\t'
  else if c = 'r' then some '\r'
  else if c = 'n' then some '\n'
  else if c = '\\' then some '\\'
  else if c = '"' then some '"'
  else none

/-- Modelled from the spec: the string-literal decoder described in
section 4.4, written directly on the character sequence of the input. -/
def string_literal_spec : List Char → Except ReaderError (List Char)
  | [] => .error .EOF
  | c :: rest =>
    if c = '"' then .ok []
    else if c = '\\' then
      match rest with
      | [] => .error .EOF
      | e :: rest₂ =>
        match escape_table e with
        | some d => (string_literal_spec rest₂).map (fun s => d :: s)
        | none => .error .InvalidCharacter
    else (string_literal_spec rest).map (fun s => c :: s)

/-- Modelled from the spec: `fmt::Display for Symbol` is commented out in
src/print.rs; the rendering is taken from spec sections 6 and 8:
a simple symbol prints as its name, a namespaced one as namespace, `/`,
name. -/
def print_symbol : Symbol → List Char
  | .SimpleSymbol name => name
  | .NamespacedSymbol ns name => ns ++ '/' :: name

/-- Modelled from the spec: `fmt::Display for Keyword` is commented out in
src/print.rs; a keyword prints as `:` followed by its symbol rendering. -/
def print_keyword : Keyword → List Char
  | .SimpleKeyword name => ':' :: name
  | .NamespacedKeyword ns name => ':' :: (ns ++ '/' :: name)

/-- Modelled from the spec: `fmt::Display for Pattern` is commented out in
src/print.rs; a pattern prints as `#`, `"`, the verbatim body, `"`. -/
def print_pattern : Pattern → List Char
  | ⟨body⟩ => '#' :: '"' :: (body ++ ['"'])

/-- Modelled from the spec: re-reading rendered symbol text.  Per section 6
the dispatcher hands the first character to `read_symbol` as `initch` with
the rest as the stream. -/
def reread_symbol (cs : List Char) : Except ReaderError Symbol :=
  match cs with
  | c :: rest => (read_symbol (string_reader rest) c).1
  | [] => .error .EOF

/-- Modelled from the spec: re-reading rendered keyword text.  Per section 6
the dispatcher consumes the leading `:` and invokes `read_keyword`. -/
def reread_keyword (cs : List Char) : Except ReaderError Keyword :=
  match cs with
  | ':' :: rest => (read_keyword (string_reader rest) ':').1
  | _ => .error .InvalidToken

/-- Modelled from the spec: re-reading rendered pattern text.  Per section 6
the dispatcher consumes the opening delimiter and invokes `read_regex`. -/
def reread_pattern (cs : List Char) : Except ReaderError Pattern :=
  match cs with
  | '#' :: '"' :: rest => (read_regex (string_reader rest) '"').1
  | _ => .error .InvalidToken

/-- Inverse of `split_slash`: interleaves the pieces with `/` characters. -/
def join_slash : List (List Char) → List Char
  | [] => []
  | [p] => p
  | p :: ps => p ++ '/' :: join_slash ps

/-- Recognizer for the one error kind the reader can never produce. -/
def is_cannot_unread {α : Type} : Except ReaderError α → Bool
  | .error .CannotUnreadChar => true
  | _ => false

theorem vec_pop_append (v : List Char) (c : Char) : vec_pop (v ++ [c]) = some (c, v) := by
  induction v with
  | nil => rfl
  | cons a v ih => simp [vec_pop, ih]

theorem remaining_length (r : Reader) : (remaining r).length = size r := by
  simp [remaining, size]

theorem remaining_nil_elim {r : Reader} (h : remaining r = []) : r = Reader.mk [] [] := by
  rcases r with ⟨s, buf⟩
  simp only [remaining] at h
  rcases List.append_eq_nil.mp h with ⟨h₁, h₂⟩
  simp_all

theorem read_char_nil {r : Reader} (h : remaining r = []) : read_char r = (.error .EOF, r) := by
  have hr := remaining_nil_elim h
  subst hr
  rfl

theorem read_char_cons {r : Reader} {c : Char} {cs : List Char} (h : remaining r = c :: cs) :
    ∃ r₁, read_char r = (.ok c, r₁) ∧ remaining r₁ = cs := by
  rcases r with ⟨s, buf⟩
  rcases List.eq_nil_or_concat buf with hb | ⟨v, a, hb⟩
  · subst hb
    simp only [remaining, List.reverse_nil, List.nil_append] at h
    subst h
    exact ⟨Reader.mk cs [], rfl, by simp [remaining]⟩
  · rw [List.concat_eq_append] at hb
    subst hb
    simp only [remaining, List.reverse_append, List.reverse_cons, List.reverse_nil,
      List.nil_append, List.cons_append, List.singleton_append, List.cons.injEq] at h
    obtain ⟨hc, hcs⟩ := h
    subst hc
    refine ⟨Reader.mk s v, ?_, ?_⟩
    · simp [read_char, vec_pop_append]
    · simpa [remaining] using hcs

theorem unread_char_remaining (r : Reader) (c : Char) :
    remaining (unread_char r c).2 = c :: remaining r := by
  rcases r with ⟨s, buf⟩
  simp [unread_char, remaining]

theorem read_char_err_eof {r : Reader} {e : ReaderError} {r₁ : Reader}
    (h : read_char r = (.error e, r₁)) : e = .EOF ∧ r₁ = r := by
  rcases r with ⟨s, buf⟩
  cases hv : vec_pop buf with
  | some p => simp [read_char, hv] at h
  | none =>
    cases s with
    | nil =>
      simp only [read_char, hv, Prod.mk.injEq] at h
      obtain ⟨h₁, h₂⟩ := h
      injection h₁ with h₁
      exact ⟨h₁.symm, h₂.symm⟩
    | cons c s => simp [read_char, hv] at h

theorem read_while_fuel_no_term {p : Char → Bool} {eof_err : Bool} :
    ∀ (fuel : Nat) (r : Reader) (acc : List Char), size r < fuel →
    (∀ c ∈ remaining r, p c = false) →
    read_while_fuel p eof_err fuel r acc =
      ((if eof_err then .error .EOF else .ok (acc ++ remaining r)), Reader.mk [] []) := by
  intro fuel
  induction fuel with
  | zero => intro r acc h; omega
  | succ n ih =>
    intro r acc hsize hall
    cases hrem : remaining r with
    | nil =>
      have hr := remaining_nil_elim hrem
      subst hr
      simp [read_while_fuel, read_char, vec_pop, remaining]
    | cons c cs =>
      obtain ⟨r₁, hrc, hrem₁⟩ := read_char_cons hrem
      have hpc : p c = false := hall c (by rw [hrem]; exact List.mem_cons_self c cs)
      have hsz : size r₁ < n := by
        have h₁ := remaining_length r
        have h₂ := remaining_length r₁
        rw [hrem] at h₁
        rw [hrem₁] at h₂
        simp at h₁
        omega
      have := ih r₁ (acc ++ [c]) hsz (by intro x hx; exact hall x (by rw [hrem, hrem₁] at *; exact List.mem_cons_of_mem c hx))
      simp [read_while_fuel, hrc, hpc, this, hrem, hrem₁]

theorem read_while_fuel_term {p : Char → Bool} {eof_err : Bool} :
    ∀ (pre : List Char) (c : Char) (rest : List Char) (fuel : Nat) (r : Reader)
      (acc : List Char), size r < fuel → remaining r = pre ++ c :: rest →
    (∀ x ∈ pre, p x = false) → p c = true →
    ∃ r', read_while_fuel p eof_err fuel r acc = (.ok (acc ++ pre), r') ∧
          remaining r' = c :: rest := by
  intro pre
  induction pre with
  | nil =>
    intro c rest fuel r acc hsize hrem hpre hc
    simp only [List.nil_append] at hrem
    obtain ⟨r₁, hrc, hrem₁⟩ := read_char_cons hrem
    cases fuel with
    | zero => omega
    | succ n =>
      refine ⟨(unread_char r₁ c).2, ?_, ?_⟩
      · simp [read_while_fuel, hrc, hc]
      · rw [unread_char_remaining, hrem₁]
  | cons x pre ih =>
    intro c rest fuel r acc hsize hrem hpre hc
    obtain ⟨r₁, hrc, hrem₁⟩ := read_char_cons (by rw [hrem]; rfl)
    have hpx : p x = false := hpre x (List.mem_cons_self x pre)
    cases fuel with
    | zero => omega
    | succ n =>
      have hsz : size r₁ < n := by
        have h₁ := remaining_length r
        have h₂ := remaining_length r₁
        rw [hrem] at h₁
        rw [hrem₁] at h₂
        simp at h₁ h₂
        omega
      obtain ⟨r', ha, hb⟩ := ih c rest n r₁ (acc ++ [x]) hsz hrem₁
        (fun y hy => hpre y (List.mem_cons_of_mem x hy)) hc
      refine ⟨r', ?_, hb⟩
      simp only [read_while_fuel, hrc, hpx, Bool.false_eq_true, if_false]
      rw [ha]
      simp

theorem read_while_no_term {p : Char → Bool} {eof_err : Bool} {r : Reader}
    (h : ∀ c ∈ remaining r, p c = false) :
    read_while p eof_err r =
      ((if eof_err then .error .EOF else .ok (remaining r)), Reader.mk [] []) := by
  have := @read_while_fuel_no_term p eof_err (size r + 1) r [] (by omega) h
  simpa [read_while] using this

theorem read_while_term {p : Char → Bool} {eof_err : Bool} {r : Reader}
    {pre : List Char} {c : Char} {rest : List Char}
    (hrem : remaining r = pre ++ c :: rest)
    (hpre : ∀ x ∈ pre, p x = false) (hc : p c = true) :
    ∃ r', read_while p eof_err r = (.ok pre, r') ∧ remaining r' = c :: rest := by
  obtain ⟨r', ha, hb⟩ := @read_while_fuel_term p eof_err
    pre c rest (size r + 1) r [] (by omega) hrem hpre hc
  exact ⟨r', by simpa [read_while] using ha, hb⟩

theorem read_while_fuel_ok_chars {p : Char → Bool} {eof_err : Bool} :
    ∀ (fuel : Nat) (r : Reader) (acc s : List Char) (r' : Reader),
    read_while_fuel p eof_err fuel r acc = (.ok s, r') →
    ∀ c ∈ s, c ∈ acc ∨ p c = false := by
  intro fuel
  induction fuel with
  | zero => intro r acc s r' h; simp [read_while_fuel] at h
  | succ n ih =>
    intro r acc s r' h c hc
    rcases hrc : read_char r with ⟨res, r₁⟩
    cases res with
    | ok x =>
      by_cases hpx : p x = true
      · simp only [read_while_fuel, hrc, hpx, if_true, Prod.mk.injEq,
          Except.ok.injEq] at h
        obtain ⟨hs, _⟩ := h
        subst hs
        exact Or.inl hc
      · simp only [read_while_fuel, hrc, hpx, if_false] at h
        rcases ih r₁ (acc ++ [x]) s r' h c hc with hmem | hp
        · rcases List.mem_append.mp hmem with hmem | hmem
          · exact Or.inl hmem
          · rcases List.mem_singleton.mp hmem with rfl
            exact Or.inr (by simpa using hpx)
        · exact Or.inr hp
    | error e =>
      simp only [read_while_fuel, hrc] at h
      cases eof_err with
      | true => simp at h
      | false =>
        simp only [Bool.false_eq_true, if_false, Prod.mk.injEq, Except.ok.injEq] at h
        obtain ⟨hs, _⟩ := h
        subst hs
        exact Or.inl hc

theorem read_while_ok_chars {p : Char → Bool} {eof_err : Bool} {r : Reader}
    {s : List Char} {r' : Reader} (h : read_while p eof_err r = (.ok s, r')) :
    ∀ c ∈ s, p c = false := by
  intro c hc
  rcases read_while_fuel_ok_chars (size r + 1) r [] s r' (by simpa [read_while] using h) c hc
    with hmem | hp
  · simp at hmem
  · exact hp

theorem read_while_fuel_err_eof {p : Char → Bool} {eof_err : Bool} :
    ∀ (fuel : Nat) (r : Reader) (acc : List Char) (e : ReaderError) (r' : Reader),
    read_while_fuel p eof_err fuel r acc = (.error e, r') → e = .EOF := by
  intro fuel
  induction fuel with
  | zero =>
    intro r acc e r' h
    simp only [read_while_fuel, Prod.mk.injEq] at h
    obtain ⟨h₁, _⟩ := h
    injection h₁ with h₁
    exact h₁.symm
  | succ n ih =>
    intro r acc e r' h
    rcases hrc : read_char r with ⟨res, r₁⟩
    cases res with
    | ok x =>
      by_cases hpx : p x = true
      · simp [read_while_fuel, hrc, hpx] at h
      · simp only [read_while_fuel, hrc, hpx, if_false] at h
        exact ih r₁ (acc ++ [x]) e r' h
    | error e₂ =>
      simp only [read_while_fuel, hrc] at h
      cases eof_err with
      | true =>
        simp only [if_true, Prod.mk.injEq] at h
        obtain ⟨h₁, _⟩ := h
        injection h₁ with h₁
        exact h₁.symm
      | false => simp at h

theorem split_slash_ne_nil (cs : List Char) : split_slash cs ≠ [] := by
  cases cs with
  | nil => simp [split_slash]
  | cons c rest =>
    simp only [split_slash]
    split
    · simp
    · split <;> simp

theorem split_slash_no_slash {cs : List Char} (h : '/' ∉ cs) : split_slash cs = [cs] := by
  induction cs with
  | nil => rfl
  | cons c rest ih =>
    have hc : (c == '/') = false := by
      simp only [beq_eq_false_iff_ne, ne_eq]
      intro hh
      exact h (hh ▸ List.mem_cons_self c rest)
    have hr : '/' ∉ rest := fun hm => h (List.mem_cons_of_mem c hm)
    simp [split_slash, hc, ih hr]

theorem split_slash_append (xs ys : List Char) :
    split_slash (xs ++ '/' :: ys) = split_slash xs ++ split_slash ys := by
  induction xs with
  | nil => simp [split_slash]
  | cons c xs ih =>
    by_cases hc : c = '/'
    · subst hc
      simp [split_slash, ih]
    · have hc' : (c == '/') = false := by simpa using hc
      simp only [List.cons_append, split_slash, hc', Bool.false_eq_true, if_false,
        List.append_eq]
      rw [ih]
      cases hs : split_slash xs with
      | nil => exact absurd hs (split_slash_ne_nil xs)
      | cons p ps => simp

theorem split_slash_pieces {cs : List Char} :
    ∀ piece ∈ split_slash cs, '/' ∉ piece ∧ ∀ c ∈ piece, c ∈ cs := by
  induction cs with
  | nil =>
    intro piece hp
    simp only [split_slash, List.mem_singleton] at hp
    subst hp
    simp
  | cons c rest ih =>
    intro piece hp
    by_cases hc : c = '/'
    · subst hc
      simp only [split_slash, beq_self_eq_true, if_true] at hp
      rcases List.mem_cons.mp hp with rfl | hp
      · simp
      · obtain ⟨h1, h2⟩ := ih piece hp
        exact ⟨h1, fun x hx => List.mem_cons_of_mem _ (h2 x hx)⟩
    · have hc' : (c == '/') = false := by simpa using hc
      simp only [split_slash, hc', Bool.false_eq_true, if_false] at hp
      cases hs : split_slash rest with
      | nil => exact absurd hs (split_slash_ne_nil rest)
      | cons p ps =>
        rw [hs] at hp
        rcases List.mem_cons.mp hp with rfl | hp
        · have hmem : p ∈ split_slash rest := by
            rw [hs]
            exact List.mem_cons_self p ps
          obtain ⟨h1, h2⟩ := ih p hmem
          constructor
          · intro hx
            rcases List.mem_cons.mp hx with hcc | hcc
            · exact hc hcc.symm
            · exact h1 hcc
          · intro x hx
            rcases List.mem_cons.mp hx with rfl | hx
            · exact List.mem_cons_self x rest
            · exact List.mem_cons_of_mem c (h2 x hx)
        · have hmem : piece ∈ split_slash rest := by
            rw [hs]
            exact List.mem_cons_of_mem p hp
          obtain ⟨h1, h2⟩ := ih piece hmem
          exact ⟨h1, fun x hx => List.mem_cons_of_mem c (h2 x hx)⟩

theorem join_slash_cons {p : List Char} {ps : List (List Char)} (h : ps ≠ []) :
    join_slash (p :: ps) = p ++ '/' :: join_slash ps := by
  cases ps with
  | nil => exact absurd rfl h
  | cons q qs => rfl

theorem join_slash_split (cs : List Char) : join_slash (split_slash cs) = cs := by
  induction cs with
  | nil => rfl
  | cons c rest ih =>
    by_cases hc : c = '/'
    · subst hc
      simp only [split_slash, beq_self_eq_true, if_true]
      rw [join_slash_cons (split_slash_ne_nil rest), ih]
      rfl
    · have hc' : (c == '/') = false := by simpa using hc
      simp only [split_slash, hc', Bool.false_eq_true, if_false]
      cases hs : split_slash rest with
      | nil => exact absurd hs (split_slash_ne_nil rest)
      | cons p ps =>
        rw [hs] at ih
        cases ps with
        | nil =>
          simp only [join_slash] at ih ⊢
          rw [ih]
        | cons q qs =>
          simp only [join_slash] at ih ⊢
          rw [List.cons_append, ih]

theorem join_slash_append (q : List Char) (qs ps : List (List Char)) (hp : ps ≠ []) :
    join_slash ((q :: qs) ++ ps) = join_slash (q :: qs) ++ '/' :: join_slash ps := by
  induction qs generalizing q with
  | nil =>
    rw [List.cons_append, List.nil_append, join_slash_cons hp]
    rfl
  | cons q₂ qs₂ ih =>
    have h1 : join_slash ((q :: q₂ :: qs₂) ++ ps) =
        q ++ '/' :: join_slash ((q₂ :: qs₂) ++ ps) := by
      rw [List.cons_append]
      exact join_slash_cons (by simp)
    rw [h1, ih q₂, join_slash_cons (show (q₂ :: qs₂ : List (List Char)) ≠ [] by simp)]
    simp

theorem split_slash_singleton {cs x : List Char} (h : split_slash cs = [x]) :
    x = cs ∧ '/' ∉ cs := by
  have hj := join_slash_split cs
  rw [h] at hj
  have hx : x = cs := hj
  have hmem : x ∈ split_slash cs := by
    rw [h]
    exact List.mem_singleton_self x
  obtain ⟨h1, _⟩ := split_slash_pieces x hmem
  exact ⟨hx, hx ▸ h1⟩

theorem parse_symbol_ok_elim {t : List Char} {ns : Option (List Char)} {name : List Char}
    (h : parse_symbol t = .ok (ns, name)) :
    t ≠ [] ∧ ends_with_colon t = false ∧ starts_with_double_colon t = false ∧
    ∃ rest, (split_slash t).reverse = name :: rest ∧ rest.head? = ns := by
  unfold parse_symbol at h
  split at h
  · exact absurd h (by simp)
  · rename_i hcond
    simp only [Bool.or_eq_true, not_or, Bool.not_eq_true] at hcond
    obtain ⟨⟨he, h2⟩, h3⟩ := hcond
    split at h
    · rename_i name' rest hrev
      simp only [Except.ok.injEq, Prod.mk.injEq] at h
      obtain ⟨hns, hname⟩ := h
      subst hname
      refine ⟨?_, h2, h3, rest, hrev, hns⟩
      intro hnil
      subst hnil
      simp at he
    · simp at h

theorem parse_symbol_ok_none_elim {t name : List Char}
    (h : parse_symbol t = .ok (none, name)) :
    name = t ∧ '/' ∉ t ∧ t ≠ [] ∧ ends_with_colon t = false ∧
    starts_with_double_colon t = false := by
  obtain ⟨h1, h2, h3, rest, hrev, hns⟩ := parse_symbol_ok_elim h
  have hrest : rest = [] := by
    cases rest with
    | nil => rfl
    | cons a l => simp at hns
  subst hrest
  have hsingle : split_slash t = [name] := by
    have hh := congrArg List.reverse hrev
    simpa using hh
  obtain ⟨hx, hy⟩ := split_slash_singleton hsingle
  exact ⟨hx, hy, h1, h2, h3⟩

theorem parse_symbol_ok_some_elim {t ns name : List Char}
    (h : parse_symbol t = .ok (some ns, name)) :
    '/' ∉ ns ∧ '/' ∉ name ∧ (∃ w, t = w ++ (ns ++ '/' :: name)) ∧
    t ≠ [] ∧ ends_with_colon t = false ∧ starts_with_double_colon t = false := by
  obtain ⟨h1, h2, h3, rest, hrev, hns⟩ := parse_symbol_ok_elim h
  cases rest with
  | nil => simp at hns
  | cons ns' rest' =>
    simp only [List.head?_cons, Option.some.injEq] at hns
    subst hns
    have hsplit : split_slash t = rest'.reverse ++ [ns', name] := by
      have hh := congrArg List.reverse hrev
      simpa [List.append_assoc] using hh
    have hmem_ns : ns' ∈ split_slash t := by
      rw [hsplit]
      simp
    have hmem_name : name ∈ split_slash t := by
      rw [hsplit]
      simp
    obtain ⟨hns_slash, _⟩ := split_slash_pieces ns' hmem_ns
    obtain ⟨hname_slash, _⟩ := split_slash_pieces name hmem_name
    refine ⟨hns_slash, hname_slash, ?_, h1, h2, h3⟩
    have ht : t = join_slash (rest'.reverse ++ [ns', name]) := by
      rw [← hsplit, join_slash_split]
    cases hre : rest'.reverse with
    | nil =>
      rw [hre] at ht
      refine ⟨[], ?_⟩
      rw [List.nil_append]
      rw [ht]
      rfl
    | cons q qs =>
      rw [hre] at ht
      rw [join_slash_append q qs [ns', name] (by simp)] at ht
      refine ⟨join_slash (q :: qs) ++ ['/'], ?_⟩
      rw [ht]
      simp [join_slash]

theorem parse_symbol_build {ns name : List Char} (hns : '/' ∉ ns) (hname : '/' ∉ name)
    (hend : ends_with_colon (ns ++ '/' :: name) = false)
    (hstart : starts_with_double_colon (ns ++ '/' :: name) = false) :
    parse_symbol (ns ++ '/' :: name) = .ok (some ns, name) := by
  have hempty : (ns ++ '/' :: name).isEmpty = false := by
    cases hcc : ns ++ '/' :: name with
    | nil => simp at hcc
    | cons a l => rfl
  unfold parse_symbol
  rw [hempty, hend, hstart]
  simp only [Bool.or_self, Bool.false_eq_true, if_false]
  rw [split_slash_append, split_slash_no_slash hns, split_slash_no_slash hname]
  simp

theorem parse_symbol_build_simple {t : List Char} (h : '/' ∉ t) (hne : t ≠ [])
    (hend : ends_with_colon t = false) (hstart : starts_with_double_colon t = false) :
    parse_symbol t = .ok (none, t) := by
  have hempty : t.isEmpty = false := by
    cases t with
    | nil => exact absurd rfl hne
    | cons a l => rfl
  unfold parse_symbol
  rw [hempty, hend, hstart]
  simp only [Bool.or_self, Bool.false_eq_true, if_false]
  rw [split_slash_no_slash h]
  simp

theorem remaining_string_reader (cs : List Char) : remaining (string_reader cs) = cs := by
  simp [remaining, string_reader]

theorem read_token_ok_elim {r : Reader} {i : Char} {t : List Char} {r₁ : Reader}
    (h : read_token r i = (.ok t, r₁)) :
    ∃ s, t = i :: s ∧ (∀ c ∈ s, (is_macro_terminating c || is_whitespace c) = false) ∧
      read_while (fun c => is_macro_terminating c || is_whitespace c) false r = (.ok s, r₁) := by
  rcases hw : read_while (fun c => is_macro_terminating c || is_whitespace c) false r
    with ⟨res, r₂⟩
  cases res with
  | error e => simp [read_token, hw, Except.map] at h
  | ok s =>
    simp only [read_token, hw, Except.map, Prod.mk.injEq, Except.ok.injEq] at h
    obtain ⟨ht, hr⟩ := h
    subst hr
    exact ⟨s, ht.symm, read_while_ok_chars hw, rfl⟩

theorem escape_char_table (c : Char) :
    escape_char c = match escape_table c with
      | some d => Except.ok [d]
      | none => Except.error ReaderError.InvalidCharacter := by
  unfold escape_char escape_table
  simp only [beq_iff_eq]
  split_ifs <;> rfl

theorem escape_char_err {c : Char} {err : ReaderError} (h : escape_char c = .error err) :
    err = .InvalidCharacter := by
  unfold escape_char at h
  split_ifs at h
  simp_all

theorem read_string_fuel_refines :
    ∀ (fuel : Nat) (r : Reader) (acc : List Char), size r < fuel →
    (read_string_fuel fuel r acc).1 =
      (string_literal_spec (remaining r)).map (fun s => acc ++ s) := by
  intro fuel
  induction fuel with
  | zero => intro r acc h; omega
  | succ n ih =>
    intro r acc hsize
    cases hrem : remaining r with
    | nil =>
      have hrc := read_char_nil hrem
      simp [read_string_fuel, hrc, hrem, string_literal_spec, Except.map]
    | cons c cs =>
      obtain ⟨r₁, hrc, hrem₁⟩ := read_char_cons hrem
      have hlen : size r = cs.length + 1 := by
        have h₁ := remaining_length r
        rw [hrem] at h₁
        simpa using h₁.symm
      have hlen₁ : size r₁ = cs.length := by
        have h₂ := remaining_length r₁
        rw [hrem₁] at h₂
        exact h₂.symm
      by_cases hq : c = '"'
      · subst hq
        have hsp : string_literal_spec ('"' :: cs) = .ok [] := by
          rw [string_literal_spec.eq_def]
          simp
        simp [read_string_fuel, hrc, hrem, hsp, Except.map]
      · have hq' : (c == '"') = false := by simpa using hq
        by_cases hb : c = '\\'
        · subst hb
          cases hcs : cs with
          | nil =>
            have hrc₂ := read_char_nil (hcs ▸ hrem₁)
            have hsp : string_literal_spec ('\\' :: ([] : List Char)) = .error .EOF := by
              rw [string_literal_spec.eq_def]
              simp
            simp [read_string_fuel, hrc, hrc₂, hrem, hcs, hsp, Except.map]
          | cons c₂ cs₂ =>
            obtain ⟨r₂, hrc₂, hrem₂⟩ := read_char_cons (hcs ▸ hrem₁)
            have hsz₂ : size r₂ < n := by
              have h₃ := remaining_length r₂
              rw [hrem₂] at h₃
              rw [hcs] at hlen
              simp at h₃ hlen
              omega
            cases het : escape_table c₂ with
            | some d =>
              have hec : escape_char c₂ = .ok [d] := by rw [escape_char_table, het]
              have hsp : string_literal_spec ('\\' :: (c₂ :: cs₂)) =
                  (string_literal_spec cs₂).map (fun s => d :: s) := by
                rw [string_literal_spec.eq_def]
                simp [het]
              have hih := ih r₂ (acc ++ [d]) hsz₂
              rw [hrem₂] at hih
              simp only [read_string_fuel, hrc, hq', Bool.false_eq_true, if_false,
                beq_self_eq_true, if_true, hrc₂, hec, hih, hrem, hcs, hsp]
              cases hsp₂ : string_literal_spec cs₂ <;> simp [Except.map]
            | none =>
              have hec : escape_char c₂ = .error .InvalidCharacter := by
                rw [escape_char_table, het]
              have hsp : string_literal_spec ('\\' :: (c₂ :: cs₂)) =
                  .error .InvalidCharacter := by
                rw [string_literal_spec.eq_def]
                simp [het]
              simp [read_string_fuel, hrc, hq', hrc₂, hec, hrem, hcs, hsp,
                Except.map]
        · have hb' : (c == '\\') = false := by simpa using hb
          have hsp : string_literal_spec (c :: cs) =
              (string_literal_spec cs).map (fun s => c :: s) := by
            rw [string_literal_spec.eq_def]
            simp [hq, hb]
          have hih := ih r₁ (acc ++ [c]) (by omega)
          rw [hrem₁] at hih
          simp only [read_string_fuel, hrc, hq', hb', Bool.false_eq_true, if_false,
            hih, hrem, hsp]
          cases hsp₂ : string_literal_spec cs <;> simp [Except.map]

theorem read_string_fuel_not_unread :
    ∀ (fuel : Nat) (r : Reader) (acc : List Char),
    is_cannot_unread (read_string_fuel fuel r acc).1 = false := by
  intro fuel
  induction fuel with
  | zero => intro r acc; rfl
  | succ n ih =>
    intro r acc
    rcases hrc : read_char r with ⟨res, r₁⟩
    cases res with
    | ok c =>
      by_cases hq : (c == '"') = true
      · simp [read_string_fuel, hrc, hq, is_cannot_unread]
      · by_cases hb : (c == '\\') = true
        · rcases hrc₂ : read_char r₁ with ⟨res₂, r₂⟩
          cases res₂ with
          | ok c₂ =>
            cases hec : escape_char c₂ with
            | ok e =>
              simp only [read_string_fuel, hrc, hq, Bool.false_eq_true, if_false,
                hb, if_true, hrc₂, hec]
              exact ih r₂ (acc ++ e)
            | error err =>
              have herr := escape_char_err hec
              subst herr
              simp [read_string_fuel, hrc, hq, hb, hrc₂, hec, is_cannot_unread]
          | error e =>
            have he := read_char_err_eof hrc₂
            simp [read_string_fuel, hrc, hq, hb, hrc₂, he.1, is_cannot_unread]
        · simp only [read_string_fuel, hrc, hq, Bool.false_eq_true, if_false, hb]
          exact ih r₁ (acc ++ [c])
    | error e =>
      have he := read_char_err_eof hrc
      simp [read_string_fuel, hrc, he.1, is_cannot_unread]

theorem read_token_all {r : Reader} {cs : List Char} (i : Char) (hrem : remaining r = cs)
    (h : ∀ c ∈ cs, (is_macro_terminating c || is_whitespace c) = false) :
    read_token r i = (.ok (i :: cs), Reader.mk [] []) := by
  have hw := @read_while_no_term (fun c => is_macro_terminating c || is_whitespace c)
    false r (by rw [hrem]; exact h)
  rw [hrem] at hw
  simp only [Bool.false_eq_true, if_false] at hw
  simp [read_token, hw, Except.map]

theorem parse_symbol_err {t : List Char} {e : ReaderError}
    (h : parse_symbol t = .error e) : e = .InvalidSymbol := by
  unfold parse_symbol at h
  split at h
  · simp_all
  · split at h
    · simp_all
    · simp_all

theorem read_token_err {r : Reader} {i : Char} {e : ReaderError} {r' : Reader}
    (h : read_token r i = (.error e, r')) : e = .EOF := by
  rcases hw : read_while (fun c => is_macro_terminating c || is_whitespace c) false r
    with ⟨res, r₂⟩
  cases res with
  | ok s => simp [read_token, hw, Except.map] at h
  | error e₂ =>
    simp only [read_token, hw, Except.map, Prod.mk.injEq] at h
    obtain ⟨h₁, _⟩ := h
    injection h₁ with h₁
    exact h₁ ▸ read_while_fuel_err_eof (size r + 1) r [] e₂ r₂ hw

theorem swdc_false_of_head {ns : List Char} (h : ns.head? ≠ some ':') :
    starts_with_double_colon ns = false := by
  cases ns with
  | nil => rfl
  | cons a t =>
    have ha : (a == ':') = false := by
      simp only [List.head?_cons, ne_eq, Option.some.injEq] at h
      simpa using h
    cases t with
    | nil => rfl
    | cons b t₂ => simp [starts_with_double_colon, ha]

theorem swdc_render {ns : List Char} (name : List Char)
    (h : starts_with_double_colon ns = false) :
    starts_with_double_colon (ns ++ '/' :: name) = false := by
  cases ns with
  | nil =>
    cases name with
    | nil => rfl
    | cons m ms =>
      have : (('/' : Char) == ':') = false := by decide
      simp [starts_with_double_colon, this]
  | cons a ns' =>
    cases ns' with
    | nil =>
      have : (('/' : Char) == ':') = false := by decide
      simp [starts_with_double_colon, this]
    | cons b ns'' =>
      simpa [starts_with_double_colon] using h

theorem ends_with_colon_append {w x : List Char} (hx : x ≠ []) :
    ends_with_colon (w ++ x) = ends_with_colon x := by
  simp [ends_with_colon, List.getLast?_append_of_ne_nil w hx]

theorem suffix_cases {t w rendered : List Char} {i : Char} {s : List Char}
    (ht : t = i :: s) (hw : t = w ++ rendered) :
    (w = [] ∧ rendered = i :: s) ∨ (∀ c ∈ rendered, c ∈ s) := by
  cases w with
  | nil =>
    rw [List.nil_append] at hw
    exact Or.inl ⟨rfl, hw.symm.trans ht⟩
  | cons x w' =>
    right
    intro c hc
    rw [ht, List.cons_append] at hw
    injection hw with h₁ h₂
    rw [h₂]
    exact List.mem_append_right w' hc

theorem render_ne_slash {ns name : List Char} (h : ¬(ns = [] ∧ name = [])) :
    ((ns ++ '/' :: name) == ['/']) = false := by
  apply beq_eq_false_iff_ne.mpr
  intro heq
  have hlen := congrArg List.length heq
  simp only [List.length_append, List.length_cons, List.length_nil] at hlen
  have hns : ns.length = 0 := by omega
  have hname : name.length = 0 := by omega
  exact h ⟨List.length_eq_zero.mp hns, List.length_eq_zero.mp hname⟩

theorem read_regex_ok_elim {r : Reader} {q : Char} {v : Pattern}
    (h : (read_regex r q).1 = .ok v) : ∀ c ∈ v.s, (c == '"') = false := by
  rcases hw : read_while (fun c => c == '"') true r with ⟨res, r₂⟩
  cases res with
  | error e => simp [read_regex, hw, Except.map] at h
  | ok s =>
    simp only [read_regex, hw, Except.map, Except.ok.injEq] at h
    rw [← h]
    exact read_while_ok_chars hw

theorem read_symbol_simple_elim {r : Reader} {i : Char} {name : List Char}
    (h : (read_symbol r i).1 = .ok (.SimpleSymbol name)) :
    name = ['/'] ∨
    (∃ s, name = i :: s ∧ (∀ c ∈ s, (is_macro_terminating c || is_whitespace c) = false) ∧
      '/' ∉ name ∧ ends_with_colon name = false ∧
      starts_with_double_colon name = false) := by
  rcases hrt : read_token r i with ⟨res, r₁⟩
  cases res with
  | error e => simp [read_symbol, hrt] at h
  | ok t =>
    obtain ⟨s, hts, hchars, _⟩ := read_token_ok_elim hrt
    by_cases hsl : (t == ['/']) = true
    · left
      simp only [read_symbol, hrt, hsl, if_true, Except.ok.injEq,
        Symbol.SimpleSymbol.injEq] at h
      exact h.symm
    · have hsl' : (t == ['/']) = false := by simpa using hsl
      cases hps : parse_symbol t with
      | error e => simp [read_symbol, hrt, hsl', hps] at h
      | ok pr =>
        rcases pr with ⟨ns, nm⟩
        cases ns with
        | some ns => simp [read_symbol, hrt, hsl', hps] at h
        | none =>
          right
          simp only [read_symbol, hrt, hsl', Bool.false_eq_true, if_false, hps,
            Except.ok.injEq, Symbol.SimpleSymbol.injEq] at h
          subst h
          obtain ⟨hnm, hslash, hne, hend, hstart⟩ := parse_symbol_ok_none_elim hps
          subst hnm
          exact ⟨s, hts, hchars, hslash, hend, hstart⟩

theorem read_symbol_namespaced_elim {r : Reader} {i : Char} {ns name : List Char}
    (h : (read_symbol r i).1 = .ok (.NamespacedSymbol ns name)) :
    ∃ t s, t = i :: s ∧ (∀ c ∈ s, (is_macro_terminating c || is_whitespace c) = false) ∧
      parse_symbol t = .ok (some ns, name) := by
  rcases hrt : read_token r i with ⟨res, r₁⟩
  cases res with
  | error e => simp [read_symbol, hrt] at h
  | ok t =>
    obtain ⟨s, hts, hchars, _⟩ := read_token_ok_elim hrt
    by_cases hsl : (t == ['/']) = true
    · simp [read_symbol, hrt, hsl] at h
    · have hsl' : (t == ['/']) = false := by simpa using hsl
      cases hps : parse_symbol t with
      | error e => simp [read_symbol, hrt, hsl', hps] at h
      | ok pr =>
        rcases pr with ⟨ns₂, nm⟩
        cases ns₂ with
        | none => simp [read_symbol, hrt, hsl', hps] at h
        | some ns₂ =>
          simp only [read_symbol, hrt, hsl', Bool.false_eq_true, if_false, hps,
            Except.ok.injEq, Symbol.NamespacedSymbol.injEq] at h
          obtain ⟨hns, hnm⟩ := h
          subst hns
          subst hnm
          exact ⟨t, s, hts, hchars, hps⟩

theorem read_keyword_simple_elim {r : Reader} {q : Char} {name : List Char}
    (h : (read_keyword r q).1 = .ok (.SimpleKeyword name)) :
    ∃ c s, name = c :: s ∧ is_whitespace c = false ∧
      (∀ x ∈ s, (is_macro_terminating x || is_whitespace x) = false) ∧
      name.head? ≠ some ':' ∧ parse_symbol name = .ok (none, name) ∧ '/' ∉ name ∧
      ends_with_colon name = false ∧ starts_with_double_colon name = false := by
  rcases hrc : read_char r with ⟨res, r₁⟩
  cases res with
  | error e => simp [read_keyword, hrc] at h
  | ok c =>
    by_cases hws : is_whitespace c = true
    · simp [read_keyword, hrc, hws] at h
    · have hws' : is_whitespace c = false := by simpa using hws
      rcases hrt : read_token r₁ c with ⟨tres, r₂⟩
      cases tres with
      | error e => simp [read_keyword, hrc, hws', hrt] at h
      | ok t =>
        obtain ⟨s, hts, hchars, _⟩ := read_token_ok_elim hrt
        cases hps : parse_symbol t with
        | error e => simp [read_keyword, hrc, hws', hrt, hps] at h
        | ok pr =>
          rcases pr with ⟨ns, nm⟩
          by_cases hhd : (t.head? == some ':') = true
          · simp [read_keyword, hrc, hws', hrt, hps, hhd] at h
          · have hhd' : (t.head? == some ':') = false := by simpa using hhd
            cases ns with
            | some ns => simp [read_keyword, hrc, hws', hrt, hps, hhd'] at h
            | none =>
              simp only [read_keyword, hrc, hws', Bool.false_eq_true, if_false, hrt,
                hps, hhd', Except.ok.injEq, Keyword.SimpleKeyword.injEq] at h
              subst h
              obtain ⟨hnm, hslash, hne, hend, hstart⟩ := parse_symbol_ok_none_elim hps
              subst hnm
              refine ⟨c, s, hts, hws', hchars, ?_, hps, hslash, hend, hstart⟩
              intro hh
              rw [hh] at hhd'
              simp at hhd'

theorem read_keyword_namespaced_elim {r : Reader} {q : Char} {ns name : List Char}
    (h : (read_keyword r q).1 = .ok (.NamespacedKeyword ns name)) :
    ∃ c s t, t = c :: s ∧ is_whitespace c = false ∧
      (∀ x ∈ s, (is_macro_terminating x || is_whitespace x) = false) ∧
      t.head? ≠ some ':' ∧ parse_symbol t = .ok (some ns, name) := by
  rcases hrc : read_char r with ⟨res, r₁⟩
  cases res with
  | error e => simp [read_keyword, hrc] at h
  | ok c =>
    by_cases hws : is_whitespace c = true
    · simp [read_keyword, hrc, hws] at h
    · have hws' : is_whitespace c = false := by simpa using hws
      rcases hrt : read_token r₁ c with ⟨tres, r₂⟩
      cases tres with
      | error e => simp [read_keyword, hrc, hws', hrt] at h
      | ok t =>
        obtain ⟨s, hts, hchars, _⟩ := read_token_ok_elim hrt
        cases hps : parse_symbol t with
        | error e => simp [read_keyword, hrc, hws', hrt, hps] at h
        | ok pr =>
          rcases pr with ⟨ns₂, nm⟩
          by_cases hhd : (t.head? == some ':') = true
          · simp [read_keyword, hrc, hws', hrt, hps, hhd] at h
          · have hhd' : (t.head? == some ':') = false := by simpa using hhd
            cases ns₂ with
            | none => simp [read_keyword, hrc, hws', hrt, hps, hhd'] at h
            | some ns₂ =>
              simp only [read_keyword, hrc, hws', Bool.false_eq_true, if_false, hrt,
                hps, hhd', Except.ok.injEq, Keyword.NamespacedKeyword.injEq] at h
              obtain ⟨hns, hnm⟩ := h
              subst hns
              subst hnm
              refine ⟨c, s, t, hts, hws', hchars, ?_, hps⟩
              intro hh
              rw [hh] at hhd'
              simp at hhd'

theorem parse_symbol_of_rev {t name : List Char} {rest : List (List Char)}
    (hcond : (t.isEmpty || ends_with_colon t || starts_with_double_colon t) = false)
    (hrev : (split_slash t).reverse = name :: rest) :
    parse_symbol t = .ok (rest.head?, name) := by
  unfold parse_symbol
  rw [hcond, hrev]
  simp

/-- C1: after `unread('a')` then `unread('b')` on an empty reader, the claim
requires the immediately following `peek` to return `b` (the last pushed
character), and indeed `read` returns `b`; but `peek_char` reads `buf[0]`,
the oldest buffered character, and returns `a`.  This evaluates the code at
the failing input and exhibits the divergence between `peek_char` and the
next `read_char`. -/
theorem C1_peek_divergence :
    peek_char (unread_char (unread_char (string_reader []) 'a').2 'b').2 = .ok 'a' ∧
    (read_char (unread_char (unread_char (string_reader []) 'a').2 'b').2).1 = .ok 'b' ∧
    (Except.ok 'a' : Except ReaderError Char) ≠ .ok 'b' := by
  refine ⟨by decide, by decide, by decide⟩

/-- C2 counterexample: on the token `a/b/c` the code returns namespace `b`
(the single segment before the last slash, because `rsplit` yields segments,
not the remaining prefix), not the full prefix `a/b` the claim requires. -/
theorem C2_counterexample :
    parse_symbol (chars "a/b/c") = .ok (some (chars "b"), chars "c") ∧
    (Except.ok (some (chars "b"), chars "c") :
      Except ReaderError (Option (List Char) × List Char)) ≠
      .ok (some (chars "a/b"), chars "c") := by
  exact ⟨by decide, by decide⟩

/-- C2 (amended): `parse_symbol` fails with InvalidSymbol exactly when the
token is empty, ends with `:` or starts with `::`; otherwise it succeeds,
and on a token with no `/` the namespace is absent and the name is the whole
token; on a token decomposed around its last `/` the name is the suffix and
the namespace is only the last segment of the prefix (the whole prefix when
the prefix has no `/` of its own, and the final segment `seg` when the
prefix itself ends with `/seg`). -/
theorem C2_parse_symbol_split (token : List Char) :
    ((token.isEmpty || ends_with_colon token || starts_with_double_colon token) = true →
      parse_symbol token = .error .InvalidSymbol) ∧
    ((token.isEmpty || ends_with_colon token || starts_with_double_colon token) = false →
      (∃ res, parse_symbol token = .ok res) ∧
      ('/' ∉ token → parse_symbol token = .ok (none, token)) ∧
      (∀ pre name, token = pre ++ '/' :: name → '/' ∉ name →
        ('/' ∉ pre → parse_symbol token = .ok (some pre, name)) ∧
        (∀ pre₂ seg, pre = pre₂ ++ '/' :: seg → '/' ∉ seg →
          parse_symbol token = .ok (some seg, name)))) := by
  constructor
  · intro h
    unfold parse_symbol
    rw [h]
    simp
  · intro hcond
    refine ⟨?_, ?_, ?_⟩
    · cases hrev : (split_slash token).reverse with
      | nil =>
        exact absurd (List.reverse_eq_nil_iff.mp hrev) (split_slash_ne_nil token)
      | cons name rest =>
        exact ⟨(rest.head?, name), parse_symbol_of_rev hcond hrev⟩
    · intro hslash
      have hrev : (split_slash token).reverse = [token] := by
        rw [split_slash_no_slash hslash]
        rfl
      simpa using parse_symbol_of_rev hcond hrev
    · intro pre name htok hname
      constructor
      · intro hpre
        have hrev : (split_slash token).reverse = name :: [pre] := by
          rw [htok, split_slash_append, split_slash_no_slash hpre,
            split_slash_no_slash hname]
          rfl
        simpa using parse_symbol_of_rev hcond hrev
      · intro pre₂ seg hpre₂ hseg
        have htok₂ : token = pre₂ ++ '/' :: (seg ++ '/' :: name) := by
          rw [htok, hpre₂]
          simp
        have hrev : (split_slash token).reverse =
            name :: seg :: (split_slash pre₂).reverse := by
          rw [htok₂, split_slash_append, split_slash_append,
            split_slash_no_slash hseg, split_slash_no_slash hname]
          simp
        simpa using parse_symbol_of_rev hcond hrev

/-- C2 witness: a single-slash token keeps its whole prefix as namespace. -/
theorem C2_witness : parse_symbol (chars "x/y") = .ok (some (chars "x"), chars "y") :=
  (((C2_parse_symbol_split (chars "x/y")).2 (by decide)).2.2 (chars "x") (chars "y")
    (by decide) (by decide)).1 (by decide)

/-- C3 counterexample: token `a/` (initial character `a` before input `/ `)
successfully yields a Namespaced symbol with an empty name, and token `/a`
successfully yields one with an empty namespace, refuting the claimed
non-emptiness invariant for successful results. -/
theorem C3_counterexample :
    (read_symbol (string_reader (chars "/ ")) 'a').1
      = .ok (.NamespacedSymbol (chars "a") []) ∧
    (read_symbol (string_reader (chars "a ")) '/').1
      = .ok (.NamespacedSymbol [] (chars "a")) := by
  exact ⟨by decide, by decide⟩

/-- C3 (amended): every `SimpleSymbol` returned successfully by
`read_symbol` and every `SimpleKeyword` returned successfully by
`read_keyword` has a non-empty name; the Namespaced variants can carry an
empty name (token ending in `/`) or an empty namespace (token starting
with `/`), as the counterexample shows. -/
theorem C3_simple_nonempty :
    (∀ (r : Reader) (i : Char) (name : List Char),
      (read_symbol r i).1 = .ok (.SimpleSymbol name) → name ≠ []) ∧
    (∀ (r : Reader) (q : Char) (name : List Char),
      (read_keyword r q).1 = .ok (.SimpleKeyword name) → name ≠ []) := by
  constructor
  · intro r i name h
    rcases read_symbol_simple_elim h with h₁ | ⟨s, hs, _⟩
    · subst h₁
      simp
    · rw [hs]
      simp
  · intro r q name h
    obtain ⟨c, s, hcs, _⟩ := read_keyword_simple_elim h
    rw [hcs]
    simp

/-- C3 witness: applying the amended claim at a concrete reader. -/
theorem C3_witness : chars "abc" ≠ ([] : List Char) :=
  C3_simple_nonempty.1 (string_reader (chars "bc ")) 'a' (chars "abc") (by decide)

/-- C4: `read_while` consumes characters up to the first character `c`
satisfying the predicate, returns the accumulated characters without `c`,
and pushes `c` back so the next `read_char` returns that terminator; when
the stream exhausts with no terminator it succeeds with the accumulated
text when `eof_err` is false and fails with EOF when `eof_err` is true. -/
theorem C4_read_while_contract (p : Char → Bool) (eof_err : Bool) (r : Reader) :
    (∀ pre c rest, remaining r = pre ++ c :: rest →
      (∀ x ∈ pre, p x = false) → p c = true →
      (read_while p eof_err r).1 = .ok pre ∧
      (read_char (read_while p eof_err r).2).1 = .ok c) ∧
    ((∀ c ∈ remaining r, p c = false) →
      (read_while p false r).1 = .ok (remaining r) ∧
      (read_while p true r).1 = .error .EOF) := by
  constructor
  · intro pre c rest hrem hpre hc
    obtain ⟨r', ha, hb⟩ := read_while_term hrem hpre hc
    obtain ⟨r₂, hrc, _⟩ := read_char_cons hb
    rw [ha]
    exact ⟨rfl, by rw [hrc]⟩
  · intro hall
    constructor
    · rw [read_while_no_term hall]
      simp
    · rw [read_while_no_term hall]
      simp

/-- C4 witness: the contract applied at input `abc ` with predicate
terminating at the space, and at terminator-free input `abc`. -/
theorem C4_witness :
    (read_while (fun c => c == ' ') false (string_reader (chars "abc "))).1
      = .ok (chars "abc") ∧
    (read_char (read_while (fun c => c == ' ')
      false (string_reader (chars "abc "))).2).1 = .ok ' ' ∧
    (read_while (fun c => c == ' ') true (string_reader (chars "abc"))).1
      = .error .EOF := by
  refine ⟨?_, ?_, ?_⟩
  · exact ((C4_read_while_contract (fun c => c == ' ') false
      (string_reader (chars "abc "))).1 (chars "abc") ' ' []
      (by decide) (by decide) (by decide)).1
  · exact ((C4_read_while_contract (fun c => c == ' ') false
      (string_reader (chars "abc "))).1 (chars "abc") ' ' []
      (by decide) (by decide) (by decide)).2
  · exact ((C4_read_while_contract (fun c => c == ' ') true
      (string_reader (chars "abc"))).2 (by decide)).2

/-- C5: `read_string_type` refines the spec's string-literal decoder: it
returns the accumulated string at an unescaped `"`, decodes escapes by
exactly the table t, r, n, backslash, quote, fails with the
invalid-character-escape kind on every other escaped character, and fails
with EOF whenever the input exhausts before the closing quote. -/
theorem C5_read_string_refinement (r : Reader) (q : Char) :
    (read_string_type r q).1 = string_literal_spec (remaining r) := by
  have h : (read_string_type r q).1 =
      (string_literal_spec (remaining r)).map (fun s => [] ++ s) :=
    read_string_fuel_refines (size r + 1) r [] (by omega)
  rw [h]
  cases hsp : string_literal_spec (remaining r) <;> simp [Except.map]

/-- C7: `read_regex` returns the verbatim text up to, and not including,
the first `"` — a preceding backslash does not prevent termination and the
terminating quote is pushed back, not consumed into the body — and fails
with EOF when the input contains no quote at all. -/
theorem C7_read_regex_contract (r : Reader) (q : Char) :
    (∀ pre rest, remaining r = pre ++ '"' :: rest → '"' ∉ pre →
      (read_regex r q).1 = .ok ⟨pre⟩ ∧
      (read_char (read_regex r q).2).1 = .ok '"') ∧
    ('"' ∉ remaining r → (read_regex r q).1 = .error .EOF) := by
  constructor
  · intro pre rest hrem hpre
    have hpre' : ∀ x ∈ pre, (x == '"') = false := by
      intro x hx
      simp only [beq_eq_false_iff_ne, ne_eq]
      intro hq
      exact hpre (hq ▸ hx)
    obtain ⟨r', ha, hb⟩ := @read_while_term (fun c => c == '"') true r pre '"' rest
      hrem hpre' (by simp)
    obtain ⟨r₂, hrc, _⟩ := read_char_cons hb
    constructor
    · simp [read_regex, ha, Except.map]
    · simp [read_regex, ha, hrc]
  · intro hq
    have hall : ∀ c ∈ remaining r, (c == '"') = false := by
      intro c hc
      simp only [beq_eq_false_iff_ne, ne_eq]
      intro h
      exact hq (h ▸ hc)
    have hnt := @read_while_no_term (fun c => c == '"') true r hall
    simp [read_regex, hnt, Except.map]

/-- C7 witness: an embedded backslash does not shield the quote, and a
quote-free input fails with EOF. -/
theorem C7_witness :
    (read_regex (string_reader (chars "ab\\\"x")) '"').1 = .ok ⟨chars "ab\\"⟩ ∧
    (read_regex (string_reader (chars "abc")) '"').1 = .error .EOF := by
  constructor
  · exact ((C7_read_regex_contract (string_reader (chars "ab\\\"x")) '"').1
      (chars "ab\\") (chars "x") (by decide) (by decide)).1
  · exact (C7_read_regex_contract (string_reader (chars "abc")) '"').2 (by decide)

/-- C8: whenever the token assembled by `read_token` is exactly `/`, the
symbol reader returns the simple symbol `/` — neither an InvalidSymbol
error nor a Namespaced variant. -/
theorem C8_slash_token (r : Reader) (i : Char)
    (h : (read_token r i).1 = .ok ['/']) :
    (read_symbol r i).1 = .ok (.SimpleSymbol ['/']) := by
  rcases hrt : read_token r i with ⟨res, r₁⟩
  rw [hrt] at h
  have hres : res = .ok ['/'] := h
  subst hres
  simp [read_symbol, hrt]

/-- C8 witness: input consisting solely of `/` yields the simple symbol. -/
theorem C8_witness :
    (read_symbol (string_reader (chars " ")) '/').1 = .ok (.SimpleSymbol ['/']) :=
  C8_slash_token (string_reader (chars " ")) '/' (by decide)

/-- C6: `read_keyword` fails with InvalidToken when the first character
read after the leading `:` is whitespace; otherwise it reads a token from
that character, propagates any `parse_symbol` failure unchanged, fails with
InvalidKeyword when the parsed token's first character is `:` (a
double-colon keyword such as `::a`), and otherwise returns a Simple or
Namespaced keyword according to the parsed namespace. -/
theorem C6_read_keyword_contract :
    (∀ (r : Reader) (q c : Char) (r₁ : Reader), read_char r = (.ok c, r₁) →
      is_whitespace c = true → (read_keyword r q).1 = .error .InvalidToken) ∧
    (∀ (r : Reader) (q c : Char) (r₁ : Reader) (token : List Char) (r₂ : Reader),
      read_char r = (.ok c, r₁) → is_whitespace c = false →
      read_token r₁ c = (.ok token, r₂) →
      ((∀ e, parse_symbol token = .error e → (read_keyword r q).1 = .error e) ∧
       (∀ pr, parse_symbol token = .ok pr → token.head? = some ':' →
         (read_keyword r q).1 = .error .InvalidKeyword) ∧
       (∀ name, parse_symbol token = .ok (none, name) → token.head? ≠ some ':' →
         (read_keyword r q).1 = .ok (.SimpleKeyword name)) ∧
       (∀ ns name, parse_symbol token = .ok (some ns, name) → token.head? ≠ some ':' →
         (read_keyword r q).1 = .ok (.NamespacedKeyword ns name)))) := by
  constructor
  · intro r q c r₁ hrc hws
    simp [read_keyword, hrc, hws]
  · intro r q c r₁ token r₂ hrc hws hrt
    refine ⟨?_, ?_, ?_, ?_⟩
    · intro e hps
      simp [read_keyword, hrc, hws, hrt, hps]
    · intro pr hps hhd
      have hhd' : (token.head? == some ':') = true := by
        rw [hhd]
        simp
      rcases pr with ⟨ns, name⟩
      simp [read_keyword, hrc, hws, hrt, hps, hhd']
    · intro name hps hhd
      have hhd' : (token.head? == some ':') = false := by simpa using hhd
      simp [read_keyword, hrc, hws, hrt, hps, hhd']
    · intro ns name hps hhd
      have hhd' : (token.head? == some ':') = false := by simpa using hhd
      simp [read_keyword, hrc, hws, hrt, hps, hhd']

/-- C6 witness: the contract applied to input `abc ` after the `:`. -/
theorem C6_witness :
    (read_keyword (string_reader (chars "abc ")) ':').1
      = .ok (.SimpleKeyword (chars "abc")) :=
  (C6_read_keyword_contract.2 (string_reader (chars "abc ")) ':' 'a'
    (Reader.mk (chars "bc ") []) (chars "abc") (Reader.mk [] [' '])
    (by decide) (by decide) (by decide)).2.2.1 (chars "abc") (by decide) (by decide)

/-- C10: the error kind CannotUnreadChar is unreachable: `unread_char`
returns Ok for every reader state and character, and no reader operation
ever produces that error kind. -/
theorem C10_cannot_unread_unreachable :
    (∀ (r : Reader) (c : Char), (unread_char r c).1 = .ok ()) ∧
    (∀ r : Reader, is_cannot_unread (peek_char r) = false) ∧
    (∀ r : Reader, is_cannot_unread (read_char r).1 = false) ∧
    (∀ (p : Char → Bool) (e : Bool) (r : Reader),
      is_cannot_unread (read_while p e r).1 = false) ∧
    (∀ (r : Reader) (q : Char), is_cannot_unread (read_string_type r q).1 = false) ∧
    (∀ (r : Reader) (q : Char), is_cannot_unread (read_regex r q).1 = false) ∧
    (∀ (r : Reader) (i : Char), is_cannot_unread (read_token r i).1 = false) ∧
    (∀ t : List Char, is_cannot_unread (parse_symbol t) = false) ∧
    (∀ (r : Reader) (i : Char), is_cannot_unread (read_symbol r i).1 = false) ∧
    (∀ (r : Reader) (q : Char), is_cannot_unread (read_keyword r q).1 = false) := by
  have hrw : ∀ (p : Char → Bool) (e : Bool) (r : Reader),
      is_cannot_unread (read_while p e r).1 = false := by
    intro p e r
    rcases hw : read_while p e r with ⟨res, r'⟩
    cases res with
    | ok s => simp [hw, is_cannot_unread]
    | error e₂ =>
      have he : e₂ = .EOF := read_while_fuel_err_eof (size r + 1) r [] e₂ r' hw
      subst he
      simp [hw, is_cannot_unread]
  have hrt : ∀ (r : Reader) (i : Char), is_cannot_unread (read_token r i).1 = false := by
    intro r i
    rcases hw : read_token r i with ⟨res, r'⟩
    cases res with
    | ok s => simp [hw, is_cannot_unread]
    | error e =>
      have he : e = .EOF := read_token_err hw
      subst he
      simp [hw, is_cannot_unread]
  have hps : ∀ t : List Char, is_cannot_unread (parse_symbol t) = false := by
    intro t
    cases hp : parse_symbol t with
    | ok pr => simp [hp, is_cannot_unread]
    | error e =>
      have he : e = .InvalidSymbol := parse_symbol_err hp
      subst he
      simp [hp, is_cannot_unread]
  have hrc : ∀ r : Reader, is_cannot_unread (read_char r).1 = false := by
    intro r
    rcases h : read_char r with ⟨res, r₁⟩
    cases res with
    | ok c => simp [h, is_cannot_unread]
    | error e =>
      obtain ⟨he, _⟩ := read_char_err_eof h
      subst he
      simp [h, is_cannot_unread]
  refine ⟨fun r c => rfl, ?_, hrc, hrw, ?_, ?_, hrt, hps, ?_, ?_⟩
  · intro r
    rcases r with ⟨s, buf⟩
    cases buf with
    | nil => cases s <;> rfl
    | cons c b => rfl
  · intro r q
    exact read_string_fuel_not_unread (size r + 1) r []
  · intro r q
    rcases hw : read_while (fun c => c == '"') true r with ⟨res, r'⟩
    cases res with
    | ok s => simp [read_regex, hw, Except.map, is_cannot_unread]
    | error e₂ =>
      have he : e₂ = .EOF := read_while_fuel_err_eof (size r + 1) r [] e₂ r' hw
      subst he
      simp [read_regex, hw, Except.map, is_cannot_unread]
  · intro r i
    rcases hw : read_token r i with ⟨res, r₁⟩
    cases res with
    | error e =>
      have he : e = .EOF := read_token_err hw
      subst he
      simp [read_symbol, hw, is_cannot_unread]
    | ok t =>
      by_cases hsl : (t == ['/']) = true
      · simp [read_symbol, hw, hsl, is_cannot_unread]
      · have hsl' : (t == ['/']) = false := by simpa using hsl
        cases hp : parse_symbol t with
        | error e =>
          have he : e = .InvalidSymbol := parse_symbol_err hp
          subst he
          simp [read_symbol, hw, hsl', hp, is_cannot_unread]
        | ok pr =>
          rcases pr with ⟨ns, nm⟩
          cases ns <;> simp [read_symbol, hw, hsl', hp, is_cannot_unread]
  · intro r q
    rcases hc : read_char r with ⟨res, r₁⟩
    cases res with
    | error e =>
      obtain ⟨he, _⟩ := read_char_err_eof hc
      subst he
      simp [read_keyword, hc, is_cannot_unread]
    | ok c =>
      by_cases hws : is_whitespace c = true
      · simp [read_keyword, hc, hws, is_cannot_unread]
      · have hws' : is_whitespace c = false := by simpa using hws
        rcases hw : read_token r₁ c with ⟨tres, r₂⟩
        cases tres with
        | error e =>
          have he : e = .EOF := read_token_err hw
          subst he
          simp [read_keyword, hc, hws', hw, is_cannot_unread]
        | ok t =>
          cases hp : parse_symbol t with
          | error e =>
            have he : e = .InvalidSymbol := parse_symbol_err hp
            subst he
            simp [read_keyword, hc, hws', hw, hp, is_cannot_unread]
          | ok pr =>
            rcases pr with ⟨ns, nm⟩
            by_cases hhd : (t.head? == some ':') = true
            · simp [read_keyword, hc, hws', hw, hp, hhd, is_cannot_unread]
            · have hhd' : (t.head? == some ':') = false := by simpa using hhd
              cases ns <;> simp [read_keyword, hc, hws', hw, hp, hhd', is_cannot_unread]

/-- C9 counterexample: three values this reader constructs whose rendering
does not re-read to an equal value.  Token `//` yields
`NamespacedSymbol("","")`, which prints as `/` and re-reads as the simple
symbol `/`; token `x/::y/z` yields `NamespacedSymbol("::y","z")`, which
prints as `::y/z` and re-reading fails with InvalidSymbol; keyword token
`x/:a/b` yields `NamespacedKeyword(":a","b")`, which prints as `::a/b` and
re-reading fails with InvalidKeyword. -/
theorem C9_counterexample :
    ((read_symbol (string_reader (chars "/ ")) '/').1
      = .ok (.NamespacedSymbol [] []) ∧
     reread_symbol (print_symbol (.NamespacedSymbol [] []))
      = .ok (.SimpleSymbol ['/']) ∧
     Symbol.SimpleSymbol ['/'] ≠ .NamespacedSymbol [] []) ∧
    ((read_symbol (string_reader (chars "/::y/z ")) 'x').1
      = .ok (.NamespacedSymbol (chars "::y") (chars "z")) ∧
     reread_symbol (print_symbol (.NamespacedSymbol (chars "::y") (chars "z")))
      = .error .InvalidSymbol) ∧
    ((read_keyword (string_reader (chars "x/:a/b ")) ':').1
      = .ok (.NamespacedKeyword (chars ":a") (chars "b")) ∧
     reread_keyword (print_keyword (.NamespacedKeyword (chars ":a") (chars "b")))
      = .error .InvalidKeyword) := by
  refine ⟨⟨by decide, by decide, by decide⟩, ⟨by decide, by decide⟩, ⟨by decide, by decide⟩⟩

/-- C9 (amended): rendering through the spec's printer and re-reading
yields an equal value for every constructible Pattern, every constructible
simple symbol and simple keyword, and every constructible namespaced
symbol or keyword except the cases the counterexample forces: a namespaced
symbol whose namespace starts with `::` or whose namespace and name are
both empty, and a namespaced keyword whose namespace starts with `:`. -/
theorem C9_round_trip :
    (∀ (r : Reader) (q : Char) (v : Pattern), (read_regex r q).1 = .ok v →
      reread_pattern (print_pattern v) = .ok v) ∧
    (∀ (r : Reader) (i : Char) (name : List Char),
      (read_symbol r i).1 = .ok (.SimpleSymbol name) →
      reread_symbol (print_symbol (.SimpleSymbol name)) = .ok (.SimpleSymbol name)) ∧
    (∀ (r : Reader) (i : Char) (ns name : List Char),
      (read_symbol r i).1 = .ok (.NamespacedSymbol ns name) →
      starts_with_double_colon ns = false → (ns ≠ [] ∨ name ≠ []) →
      reread_symbol (print_symbol (.NamespacedSymbol ns name))
        = .ok (.NamespacedSymbol ns name)) ∧
    (∀ (r : Reader) (q : Char) (name : List Char),
      (read_keyword r q).1 = .ok (.SimpleKeyword name) →
      reread_keyword (print_keyword (.SimpleKeyword name))
        = .ok (.SimpleKeyword name)) ∧
    (∀ (r : Reader) (q : Char) (ns name : List Char),
      (read_keyword r q).1 = .ok (.NamespacedKeyword ns name) →
      ns.head? ≠ some ':' →
      reread_keyword (print_keyword (.NamespacedKeyword ns name))
        = .ok (.NamespacedKeyword ns name)) := by
  refine ⟨?_, ?_, ?_, ?_, ?_⟩
  · -- Pattern round trip
    intro r q v h
    have hbody := read_regex_ok_elim h
    rcases v with ⟨body⟩
    show (read_regex (string_reader (body ++ ['"'])) '"').1 = .ok ⟨body⟩
    have hrem : remaining (string_reader (body ++ ['"'])) = body ++ '"' :: [] := by
      simp [remaining_string_reader]
    obtain ⟨r', ha, _⟩ := @read_while_term (fun c => c == '"') true
      (string_reader (body ++ ['"'])) body '"' [] hrem (fun x hx => hbody x hx) (by simp)
    simp [read_regex, ha, Except.map]
  · -- simple symbol round trip
    intro r i name h
    rcases read_symbol_simple_elim h with h₁ | ⟨s, hs, hchars, hslash, hend, hstart⟩
    · subst h₁
      decide
    · subst hs
      show (read_symbol (string_reader s) i).1 = .ok (.SimpleSymbol (i :: s))
      have hrt := read_token_all (r := string_reader s) i (remaining_string_reader s) hchars
      have hne : ((i :: s) == ['/']) = false := by
        apply beq_eq_false_iff_ne.mpr
        intro heq
        apply hslash
        rw [heq]
        simp
      have hps := parse_symbol_build_simple hslash (by simp) hend hstart
      simp [read_symbol, hrt, hne, hps]
  · -- namespaced symbol round trip
    intro r i ns name h hstart_ns hne_both
    obtain ⟨t, s, hts, hchars, hps⟩ := read_symbol_namespaced_elim h
    obtain ⟨hns_sl, hname_sl, ⟨w, hw⟩, htne, hend_t, hstart_t⟩ :=
      parse_symbol_ok_some_elim hps
    have hend_r : ends_with_colon (ns ++ '/' :: name) = false := by
      have hx := ends_with_colon_append (w := w) (x := ns ++ '/' :: name) (by simp)
      rw [← hw] at hx
      rw [← hx]
      exact hend_t
    have hstart_r : starts_with_double_colon (ns ++ '/' :: name) = false :=
      swdc_render name hstart_ns
    have hps_r : parse_symbol (ns ++ '/' :: name) = .ok (some ns, name) :=
      parse_symbol_build hns_sl hname_sl hend_r hstart_r
    show reread_symbol (ns ++ '/' :: name) = .ok (.NamespacedSymbol ns name)
    cases hrd : ns ++ '/' :: name with
    | nil => simp at hrd
    | cons c₀ restR =>
      have hrest : ∀ c ∈ restR, (is_macro_terminating c || is_whitespace c) = false := by
        rcases suffix_cases hts hw with ⟨hwnil, hrend⟩ | hsub
        · rw [hrd] at hrend
          injection hrend with h₁ h₂
          intro c hc
          exact hchars c (h₂ ▸ hc)
        · intro c hc
          exact hchars c (hsub c (by rw [hrd]; exact List.mem_cons_of_mem c₀ hc))
      have hrt₂ := read_token_all (r := string_reader restR) c₀
        (remaining_string_reader restR) hrest
      have hnsl : ((c₀ :: restR) == ['/']) = false := by
        rw [← hrd]
        apply render_ne_slash
        rintro ⟨h1, h2⟩
        rcases hne_both with hh | hh
        · exact hh h1
        · exact hh h2
      have hps₂ : parse_symbol (c₀ :: restR) = .ok (some ns, name) := by
        rw [← hrd]
        exact hps_r
      show (read_symbol (string_reader restR) c₀).1 = .ok (.NamespacedSymbol ns name)
      simp [read_symbol, hrt₂, hnsl, hps₂]
  · -- simple keyword round trip
    intro r q name h
    obtain ⟨c, s, hcs, hws, hchars, hhd, hps, hslash, hend, hstart⟩ :=
      read_keyword_simple_elim h
    subst hcs
    show (read_keyword (string_reader (c :: s)) ':').1 = .ok (.SimpleKeyword (c :: s))
    have hrc : read_char (string_reader (c :: s)) = (.ok c, Reader.mk s []) := rfl
    have hrt := read_token_all (r := Reader.mk s []) c (by simp [remaining]) hchars
    have hhd' : ((c :: s).head? == some ':') = false := beq_eq_false_iff_ne.mpr hhd
    have hc_ne : c ≠ ':' := by simpa using hhd
    simp [read_keyword, hrc, hws, hrt, hps, hhd', hc_ne]
  · -- namespaced keyword round trip
    intro r q ns name h hhd_ns
    obtain ⟨c, s, t, hts, hws, hchars, hhd_t, hps⟩ := read_keyword_namespaced_elim h
    obtain ⟨hns_sl, hname_sl, ⟨w, hw⟩, htne, hend_t, hstart_t⟩ :=
      parse_symbol_ok_some_elim hps
    have hstart_ns : starts_with_double_colon ns = false := swdc_false_of_head hhd_ns
    have hend_r : ends_with_colon (ns ++ '/' :: name) = false := by
      have hx := ends_with_colon_append (w := w) (x := ns ++ '/' :: name) (by simp)
      rw [← hw] at hx
      rw [← hx]
      exact hend_t
    have hstart_r : starts_with_double_colon (ns ++ '/' :: name) = false :=
      swdc_render name hstart_ns
    have hps_r : parse_symbol (ns ++ '/' :: name) = .ok (some ns, name) :=
      parse_symbol_build hns_sl hname_sl hend_r hstart_r
    show reread_keyword (':' :: (ns ++ '/' :: name)) = .ok (.NamespacedKeyword ns name)
    cases hrd : ns ++ '/' :: name with
    | nil => simp at hrd
    | cons c₀ restR =>
      have key : is_whitespace c₀ = false ∧
          (∀ x ∈ restR, (is_macro_terminating x || is_whitespace x) = false) := by
        rcases suffix_cases hts hw with ⟨hwnil, hrend⟩ | hsub
        · rw [hrd] at hrend
          injection hrend with h₁ h₂
          constructor
          · exact h₁ ▸ hws
          · intro x hx
            exact hchars x (h₂ ▸ hx)
        · constructor
          · have hc₀ : c₀ ∈ s := hsub c₀ (by rw [hrd]; exact List.mem_cons_self c₀ restR)
            exact (Bool.or_eq_false_iff.mp (hchars c₀ hc₀)).2
          · intro x hx
            exact hchars x (hsub x (by rw [hrd]; exact List.mem_cons_of_mem c₀ hx))
      obtain ⟨hws₀, hrest⟩ := key
      have hc₀_ne : c₀ ≠ ':' := by
        cases ns with
        | nil =>
          simp only [List.nil_append] at hrd
          injection hrd with h₁ h₂
          rw [← h₁]
          decide
        | cons a ns' =>
          rw [List.cons_append] at hrd
          injection hrd with h₁ h₂
          subst h₁
          intro hcol
          apply hhd_ns
          simp only [List.head?_cons, Option.some.injEq]
          exact hcol
      have hhd' : ((c₀ :: restR).head? == some ':') = false := by
        simp only [List.head?_cons]
        apply beq_eq_false_iff_ne.mpr
        simpa using hc₀_ne
      have hrc : read_char (string_reader (c₀ :: restR)) = (.ok c₀, Reader.mk restR []) :=
        rfl
      have hrt₂ := read_token_all (r := Reader.mk restR []) c₀ (by simp [remaining]) hrest
      have hps₂ : parse_symbol (c₀ :: restR) = .ok (some ns, name) := by
        rw [← hrd]
        exact hps_r
      show (read_keyword (string_reader (c₀ :: restR)) ':').1
        = .ok (.NamespacedKeyword ns name)
      simp [read_keyword, hrc, hws₀, hrt₂, hps₂, hhd', hc₀_ne]

/-- C9 witness: the amended round trip applied to a concrete namespaced
symbol produced by the reader. -/
theorem C9_witness :
    reread_symbol (print_symbol (.NamespacedSymbol (chars "ns1") (chars "abc")))
      = .ok (.NamespacedSymbol (chars "ns1") (chars "abc")) :=
  C9_round_trip.2.2.1 (string_reader (chars "s1/abc ")) 'n' (chars "ns1") (chars "abc")
    (by decide) (by decide) (Or.inl (by decide))

example : (read_symbol (string_reader (chars "bc ")) 'a').1
    = .ok (.SimpleSymbol (chars "abc")) := by decide
example : (read_symbol (string_reader (chars "s1/abc ")) 'n').1
    = .ok (.NamespacedSymbol (chars "ns1") (chars "abc")) := by decide
example : (read_symbol (string_reader (chars " ")) '/').1
    = .ok (.SimpleSymbol (chars "/")) := by decide
example : (read_keyword (string_reader (chars "abc ")) ':').1
    = .ok (.SimpleKeyword (chars "abc")) := by decide
example : (read_keyword (string_reader (chars ":a ")) ':').1
    = .error .InvalidKeyword := by decide
example : (read_string_type (string_reader (chars "abc\\\\\"")) '"').1
    = .ok (chars "abc\\") := by decide
example : (read_regex (string_reader (chars "abc\\\"")) '"').1
    = .ok ⟨chars "abc\\"⟩ := by decide
example : (read_string_type (string_reader (chars "abc")) '"').1
    = .error .EOF := by decide

end Magnesia
